import Mathlib

/-!
Verification of the Validation Queue & Workflow Engine of the
job-market-intelligence-platform repository.

The repository ships the frontend (React pages under `frontend/`) of the
validation system; the backend engine (Dispatcher, Action Processor,
Stuck-Item Reaper, Reprioritizer, Queue Store) is called through
`validationApi` but its code is not part of the repository snapshot.
The engine operations below are therefore modelled from the specification
(sections 3, 4.1 to 4.5, 5 and 7), and the frontend `SkillCard` component
is embedded directly from `frontend/components/validation/SkillCard.js`.

Concurrency is modelled in the standard way for atomic operations: the
spec requires each `claimNext` to be a single atomic conditional
transition, so any concurrent execution of N callers is equivalent to
some sequential interleaving of the N atomic claims; `runClaims` ranges
over exactly those interleavings.
-/

namespace JobQueue

/-- Modelled from the spec: QueueItem.status, section 3 (the backend enum is
not in the repository snapshot). -/
inductive QStatus where
  | pending
  | in_progress
  | completed
  | skipped
deriving DecidableEq, Repr

/-- Modelled from the spec: Skill.validation_status, section 3. -/
inductive VStatus where
  | pending
  | approved
  | rejected
deriving DecidableEq, Repr

/-- Modelled from the spec: HistoryRecord.action, section 3. -/
inductive HAction where
  | approved
  | rejected
  | skipped
  | updated
  | merged
  | deleted
deriving DecidableEq, Repr

/-- Modelled from the spec: the Skill registry record, section 3.
Timestamps are natural-number instants. -/
structure Skill where
  id : Nat
  skill_name : String
  normalized_name : String
  category : Option Nat
  validation_status : VStatus
  usage_count : Nat
  created_at : Nat
deriving DecidableEq, Repr

/-- Modelled from the spec: the QueueItem work-item record, section 3. -/
structure QueueItem where
  id : Nat
  skill_id : Nat
  status : QStatus
  priority : Nat
  assigned_to : Option String
  lease_start : Option Nat
  source_count : Nat
  context_samples : List String
  created_at : Nat
deriving DecidableEq, Repr

/-- Modelled from the spec: Category reference data, sections 3 and 6. -/
structure Category where
  id : Nat
  category_name : String
  display_name : String
  icon : String
  color : String
  sort_order : Nat
  is_active : Bool
deriving DecidableEq, Repr

/-- Modelled from the spec: the append-only audit record, section 3
(creation timestamps elided; no claim mentions them). -/
structure HistoryRecord where
  skill_id : Nat
  item_id : Nat
  action : HAction
  prior_category : Option Nat
  new_category : Option Nat
  prior_status : QStatus
  new_status : QStatus
  reviewer : String
  note : String
deriving DecidableEq, Repr

/-- Modelled from the spec: the persistent state of the engine, sections 2
and 3 (Registry, Queue Store, Category Directory, History Log). -/
structure EngineState where
  skills : List Skill
  items : List QueueItem
  categories : List Category
  history : List HistoryRecord
deriving DecidableEq, Repr

/-- Modelled from the spec: the error taxonomy of section 7. -/
inductive EngError where
  | ValidationError
  | NotFoundError
  | ConflictError
  | EmptyQueueError
  | CapacityError
  | InvalidTransitionError
deriving DecidableEq, Repr

/-- Key invariant of the store: queue-item ids are pairwise distinct. -/
def NodupIds (s : EngineState) : Prop :=
  (s.items.map QueueItem.id).Nodup

instance (s : EngineState) : Decidable (NodupIds s) := by
  unfold NodupIds; infer_instance

/-- Number of pending items in the store. -/
def pendingCount (s : EngineState) : Nat :=
  s.items.countP (fun it => it.status == QStatus.pending)

/-- Update every item whose id equals `tid` by `f`, leave the rest alone.
All engine writes to a single row take this shape (a conditional update
keyed on the row identity). -/
def updIf (tid : Nat) (f : QueueItem → QueueItem) (l : List QueueItem) : List QueueItem :=
  l.map (fun j => if j.id == tid then f j else j)

/-- Candidate ordering of the Dispatcher: `b` beats `a` when it has
strictly higher priority, or equal priority and an earlier creation
time. -/
def better (a b : QueueItem) : Bool :=
  decide (a.priority < b.priority) ||
    (b.priority == a.priority && decide (b.created_at < a.created_at))

/-- Modelled from the spec: the Dispatcher selection step of section 4.2 -
the pending item with highest priority, ties broken by earliest creation
time (the backend implementation is not in the repository snapshot). -/
def selectBest : List QueueItem → Option QueueItem
  | [] => none
  | it :: rest =>
    match selectBest rest with
    | none => if it.status == QStatus.pending then some it else none
    | some b =>
      if it.status == QStatus.pending then
        some (if better it b then b else it)
      else some b

/-- Modelled from the spec: `claimNext(reviewerId)` of section 4.2 - the
atomic select-and-lease of the Dispatcher; returns EmptyQueueError
immediately when no pending item exists. -/
def claimNext (reviewer : String) (now : Nat) (s : EngineState) :
    Except EngError (EngineState × QueueItem) :=
  match selectBest s.items with
  | none => Except.error EngError.EmptyQueueError
  | some best =>
    let claimed : QueueItem :=
      { best with
          status := QStatus.in_progress
          assigned_to := some reviewer
          lease_start := some now }
    Except.ok ({ s with items := updIf best.id (fun _ => claimed) s.items }, claimed)

/-- Lookup of a queue item by id. -/
def findItem (itemId : Nat) (s : EngineState) : Option QueueItem :=
  s.items.find? (fun it => it.id == itemId)

/-- Lookup of a category by id. -/
def findCategory (categoryId : Nat) (s : EngineState) : Option Category :=
  s.categories.find? (fun c => c.id == categoryId)

/-- Current category of a skill (used for the audit record). -/
def skillCategory (skillId : Nat) (s : EngineState) : Option Nat :=
  match s.skills.find? (fun sk => sk.id == skillId) with
  | some sk => sk.category
  | none => none

/-- A terminal status in the sense of the glossary: completed or skipped. -/
def isTerminal (st : QStatus) : Bool :=
  st == QStatus.completed || st == QStatus.skipped

/-- Modelled from the spec: `approve(itemId, categoryId, reviewer)` of
section 4.3 (Action Processor; backend code not in the repository
snapshot). Requires a non-terminal item and an existing active category;
commits item + skill + audit in one step. -/
def approve (itemId : Nat) (categoryId : Option Nat) (reviewer : String)
    (s : EngineState) : Except EngError EngineState :=
  match findItem itemId s with
  | none => Except.error EngError.NotFoundError
  | some it =>
    if isTerminal it.status then
      Except.error EngError.InvalidTransitionError
    else
      match categoryId with
      | none => Except.error EngError.ValidationError
      | some cid =>
        match findCategory cid s with
        | none => Except.error EngError.ValidationError
        | some c =>
          if c.is_active then
            Except.ok { s with
              items := updIf itemId
                (fun j => { j with
                    status := QStatus.completed
                    assigned_to := none
                    lease_start := none }) s.items
              skills := s.skills.map (fun sk =>
                if sk.id == it.skill_id then
                  { sk with
                      validation_status := VStatus.approved
                      category := some cid }
                else sk)
              history := s.history ++
                [{ skill_id := it.skill_id
                   item_id := itemId
                   action := HAction.approved
                   prior_category := skillCategory it.skill_id s
                   new_category := some cid
                   prior_status := it.status
                   new_status := QStatus.completed
                   reviewer := reviewer
                   note := "" }] }
          else Except.error EngError.ValidationError

/-- Modelled from the spec: `reject(itemId, reviewer)` of section 4.3;
category untouched. -/
def reject (itemId : Nat) (reviewer : String) (s : EngineState) :
    Except EngError EngineState :=
  match findItem itemId s with
  | none => Except.error EngError.NotFoundError
  | some it =>
    if isTerminal it.status then
      Except.error EngError.InvalidTransitionError
    else
      Except.ok { s with
        items := updIf itemId
          (fun j => { j with
              status := QStatus.completed
              assigned_to := none
              lease_start := none }) s.items
        skills := s.skills.map (fun sk =>
          if sk.id == it.skill_id then
            { sk with validation_status := VStatus.rejected }
          else sk)
        history := s.history ++
          [{ skill_id := it.skill_id
             item_id := itemId
             action := HAction.rejected
             prior_category := skillCategory it.skill_id s
             new_category := skillCategory it.skill_id s
             prior_status := it.status
             new_status := QStatus.completed
             reviewer := reviewer
             note := "" }] }

/-- Modelled from the spec: `skip(itemId, reviewer)` of section 4.3; the
skill's validation_status is left as it was (deferred, not reopened). -/
def skip (itemId : Nat) (reviewer : String) (s : EngineState) :
    Except EngError EngineState :=
  match findItem itemId s with
  | none => Except.error EngError.NotFoundError
  | some it =>
    if isTerminal it.status then
      Except.error EngError.InvalidTransitionError
    else
      Except.ok { s with
        items := updIf itemId
          (fun j => { j with
              status := QStatus.skipped
              assigned_to := none
              lease_start := none }) s.items
        history := s.history ++
          [{ skill_id := it.skill_id
             item_id := itemId
             action := HAction.skipped
             prior_category := skillCategory it.skill_id s
             new_category := skillCategory it.skill_id s
             prior_status := it.status
             new_status := QStatus.skipped
             reviewer := reviewer
             note := "" }] }

/-- An in_progress item whose lease started more than `timeout` ago. -/
def isStuck (timeout now : Nat) (it : QueueItem) : Bool :=
  it.status == QStatus.in_progress &&
    (match it.lease_start with
     | some t => decide (t + timeout < now)
     | none => false)

/-- The Reaper's per-item revert: back to pending, assignee and lease
cleared, every other field (priority included) untouched. -/
def resetItem (it : QueueItem) : QueueItem :=
  { it with status := QStatus.pending, assigned_to := none, lease_start := none }

/-- Modelled from the spec: `resetStuckItems(timeoutDuration)` of section
4.4 (Stuck-Item Reaper; backend code not in the repository snapshot).
Returns the updated state and the count of items reset. -/
def resetStuckItems (timeout now : Nat) (s : EngineState) : EngineState × Nat :=
  ({ s with items := s.items.map (fun it =>
      if isStuck timeout now it then resetItem it else it) },
   s.items.countP (isStuck timeout now))

/-- Modelled from the spec: the recomputed priority of one item, section
4.5 - a deterministic function `score` of the skill's usage_count and the
item's age; the exact formula is a policy parameter (section 9). -/
def itemScore (score : Nat → Nat → Nat) (now : Nat) (skills : List Skill)
    (it : QueueItem) : Nat :=
  match skills.find? (fun sk => sk.id == it.skill_id) with
  | some sk => score sk.usage_count (now - it.created_at)
  | none => it.priority

/-- Modelled from the spec: `reprioritize()` of section 4.5
(Reprioritizer; backend code not in the repository snapshot). Recomputes
the priority of pending items only and returns the count of items whose
priority value actually changed. -/
def reprioritize (score : Nat → Nat → Nat) (now : Nat) (s : EngineState) :
    EngineState × Nat :=
  ({ s with items := s.items.map (fun it =>
      if it.status == QStatus.pending then
        { it with priority := itemScore score now s.skills it }
      else it) },
   s.items.countP (fun it =>
     it.status == QStatus.pending &&
       !(itemScore score now s.skills it == it.priority)))

/-- Page-size cap of the Queue Store list operation (the frontend pins its
page size to this backend maximum, `frontend/app/validation/queue-overview/page.js`). -/
def MAX_PAGE_SIZE : Nat := 100

/-- Result of a `list` call: one page of items plus aggregate counts
computed against the same filter in one consistent read. -/
structure ListResult where
  pageItems : List QueueItem
  pending : Nat
  in_progress : Nat
  completed : Nat
  skipped : Nat
  total : Nat
deriving DecidableEq, Repr

/-- Modelled from the spec: `list(filter, sort, page)` of section 4.1
(Queue Store; backend code not in the repository snapshot). Requests whose
page size exceeds the cap fail with CapacityError. -/
def list (flt : QueueItem → Bool) (start pageSize : Nat) (s : EngineState) :
    Except EngError ListResult :=
  if MAX_PAGE_SIZE < pageSize then
    Except.error EngError.CapacityError
  else
    let matched := s.items.filter flt
    Except.ok
      { pageItems := (matched.drop start).take pageSize
        pending := matched.countP (fun it => it.status == QStatus.pending)
        in_progress := matched.countP (fun it => it.status == QStatus.in_progress)
        completed := matched.countP (fun it => it.status == QStatus.completed)
        skipped := matched.countP (fun it => it.status == QStatus.skipped)
        total := matched.length }

/-- An incoming candidate from the extraction pipeline, section 6. -/
structure Candidate where
  skill_name : String
  normalized_name : String
  count : Nat
  context_samples : List String
  suggested_category_id : Option Nat
deriving DecidableEq, Repr

/-- A fresh id strictly above every id in the store. -/
def freshId (l : List Nat) : Nat :=
  l.foldr (fun a b => max a b) 0 + 1

/-- Modelled from the spec: `enqueue(candidate)` of section 4.1 - merge
into the open item of the same normalized skill when one exists, else
create Skill + QueueItem together, with the initial priority given by the
policy parameter `initScore` of the candidate's count (backend code not in
the repository snapshot). -/
def enqueue (initScore : Nat → Nat) (now : Nat) (cand : Candidate)
    (s : EngineState) : EngineState :=
  match s.skills.find? (fun sk => sk.normalized_name == cand.normalized_name) with
  | some sk =>
    match s.items.find? (fun it =>
        it.skill_id == sk.id && !(it.status == QStatus.completed)) with
    | some openIt =>
      { s with
        skills := s.skills.map (fun k =>
          if k.id == sk.id then
            { k with usage_count := k.usage_count + cand.count }
          else k)
        items := updIf openIt.id
          (fun j => { j with
              source_count := j.source_count + cand.count
              context_samples := j.context_samples ++ cand.context_samples })
          s.items }
    | none =>
      { s with
        items := s.items ++
          [{ id := freshId (s.items.map QueueItem.id)
             skill_id := sk.id
             status := QStatus.pending
             priority := initScore cand.count
             assigned_to := none
             lease_start := none
             source_count := cand.count
             context_samples := cand.context_samples
             created_at := now }] }
  | none =>
    let newSkillId := freshId (s.skills.map Skill.id)
    { s with
      skills := s.skills ++
        [{ id := newSkillId
           skill_name := cand.skill_name
           normalized_name := cand.normalized_name
           category := none
           validation_status := VStatus.pending
           usage_count := cand.count
           created_at := now }]
      items := s.items ++
        [{ id := freshId (s.items.map QueueItem.id)
           skill_id := newSkillId
           status := QStatus.pending
           priority := initScore cand.count
           assigned_to := none
           lease_start := none
           source_count := cand.count
           context_samples := cand.context_samples
           created_at := now }] }

/-- Modelled from the spec: the operations of the engine's external
surface, sections 4 and 6, as one step alphabet for the transition-system
view. The policy parameters of enqueue and reprioritize travel inside the
operation. -/
inductive Op where
  | enqueue (initScore : Nat → Nat) (now : Nat) (cand : Candidate)
  | claim (reviewer : String) (now : Nat)
  | approve (itemId : Nat) (categoryId : Option Nat) (reviewer : String)
  | reject (itemId : Nat) (reviewer : String)
  | skip (itemId : Nat) (reviewer : String)
  | reset (timeout now : Nat)
  | reprio (score : Nat → Nat → Nat) (now : Nat)

/-- One engine step: apply an operation, keeping the state unchanged when
the operation fails with an error (section 7: errors propagate, no partial
write survives). -/
def applyOp (op : Op) (s : EngineState) : EngineState :=
  match op with
  | Op.enqueue initScore now cand => enqueue initScore now cand s
  | Op.claim r now =>
    match claimNext r now s with
    | Except.ok p => p.1
    | Except.error _ => s
  | Op.approve itemId cid r =>
    match approve itemId cid r s with
    | Except.ok s2 => s2
    | Except.error _ => s
  | Op.reject itemId r =>
    match reject itemId r s with
    | Except.ok s2 => s2
    | Except.error _ => s
  | Op.skip itemId r =>
    match skip itemId r s with
    | Except.ok s2 => s2
    | Except.error _ => s
  | Op.reset timeout now => (resetStuckItems timeout now s).1
  | Op.reprio score now => (reprioritize score now s).1

/-- Run a sequence of engine operations from a state. -/
def runOps (ops : List Op) (s : EngineState) : EngineState :=
  match ops with
  | [] => s
  | op :: rest => runOps rest (applyOp op s)

/-- Whether a step is the Stuck-Item Reaper's. -/
def isReaper : Op → Bool
  | Op.reset _ _ => true
  | _ => false

/-- The status edges the spec allows for one step: no change, the forward
edges pending to in_progress, in_progress or pending to completed or
skipped, and the sole backward edge in_progress to pending, reserved to
the Reaper. -/
def edgeOk (op : Op) (a b : QStatus) : Prop :=
  a = b ∨
  (a = QStatus.pending ∧ b = QStatus.in_progress) ∨
  (a = QStatus.in_progress ∧ (b = QStatus.completed ∨ b = QStatus.skipped)) ∨
  (a = QStatus.pending ∧ (b = QStatus.completed ∨ b = QStatus.skipped)) ∨
  (a = QStatus.in_progress ∧ b = QStatus.pending ∧ isReaper op = true)

instance (op : Op) (a b : QStatus) : Decidable (edgeOk op a b) := by
  unfold edgeOk; infer_instance

/-- A sequential interleaving of N atomic `claimNext` calls, one per
reviewer in `rs`; returns the final state and, per successful claim, the
caller paired with the id of the item claimed. Since the spec makes each
claim one atomic conditional transition, every concurrent execution of
the N callers is equivalent to such an interleaving. -/
def runClaims (now : Nat) (rs : List String) (s : EngineState) :
    EngineState × List (String × Nat) :=
  match rs with
  | [] => (s, [])
  | r :: rest =>
    match claimNext r now s with
    | Except.error _ => runClaims now rest s
    | Except.ok p =>
      let res := runClaims now rest p.1
      (res.1, (r, p.2.id) :: res.2)

/-- Two members of an id-nodup item list with the same id are the same
item. -/
theorem eq_of_mem_of_id_eq {l : List QueueItem} (hnd : (l.map QueueItem.id).Nodup)
    {a b : QueueItem} (ha : a ∈ l) (hb : b ∈ l) (hid : a.id = b.id) : a = b := by
  induction l with
  | nil => cases ha
  | cons h t ih =>
    simp only [List.map_cons, List.nodup_cons] at hnd
    rcases List.mem_cons.mp ha with ha1 | ha2 <;> rcases List.mem_cons.mp hb with hb1 | hb2
    · rw [ha1, hb1]
    · exact absurd (by rw [ha1] at hid; rw [hid]; exact List.mem_map_of_mem _ hb2) hnd.1
    · exact absurd (by rw [hb1] at hid; rw [← hid]; exact List.mem_map_of_mem _ ha2) hnd.1
    · exact ih hnd.2 ha2 hb2

/-- Over an id-nodup list, find-by-id returns the member with that id. -/
theorem find?_eq_of_mem {l : List QueueItem} (hnd : (l.map QueueItem.id).Nodup)
    {it : QueueItem} (hit : it ∈ l) :
    l.find? (fun j => j.id == it.id) = some it := by
  induction l with
  | nil => cases hit
  | cons h t ih =>
    by_cases hc : h.id = it.id
    · have he : h = it := eq_of_mem_of_id_eq hnd (List.mem_cons_self h t) hit hc
      subst he
      simp [List.find?_cons]
    · have hit' : it ∈ t := by
        rcases List.mem_cons.mp hit with h1 | h2
        · exact absurd (by rw [h1]) hc
        · exact h2
      simp only [List.map_cons, List.nodup_cons] at hnd
      have hb : (h.id == it.id) = false := by simpa using hc
      simp only [List.find?_cons, hb]
      exact ih hnd.2 hit'

/-- A conditional update keyed on an id absent from the list is the
identity. -/
theorem updIf_eq_self {tid : Nat} {f : QueueItem → QueueItem} {l : List QueueItem}
    (h : ∀ j ∈ l, j.id ≠ tid) : updIf tid f l = l := by
  induction l with
  | nil => rfl
  | cons a t ih =>
    have h1 : (a.id == tid) = false := by simpa using h a (List.mem_cons_self a t)
    have h2 := ih (fun j hj => h j (List.mem_cons_of_mem a hj))
    have hhead : (if (a.id == tid) = true then f a else a) = a := if_neg (by simp [h1])
    simp only [updIf, List.map_cons] at h2 ⊢
    rw [hhead, h2]

/-- A conditional update whose payload keeps the id fixed keeps the id
sequence of the list. -/
theorem updIf_map_id (tid : Nat) (f : QueueItem → QueueItem)
    (hf : ∀ j : QueueItem, j.id = tid → (f j).id = j.id) (l : List QueueItem) :
    (updIf tid f l).map QueueItem.id = l.map QueueItem.id := by
  induction l with
  | nil => rfl
  | cons a t ih =>
    have hhead : (if (a.id == tid) = true then f a else a).id = a.id := by
      by_cases hc : a.id = tid
      · rw [if_pos (by simpa using hc)]; exact hf a hc
      · rw [if_neg (by simpa using hc)]
    simp only [updIf, List.map_cons] at ih ⊢
    rw [hhead, ih]

/-- Members with a different id pass through a conditional update
untouched. -/
theorem mem_updIf_of_ne {tid : Nat} {f : QueueItem → QueueItem} {j : QueueItem}
    {l : List QueueItem} (hj : j ∈ l) (hne : j.id ≠ tid) : j ∈ updIf tid f l := by
  have := List.mem_map_of_mem (fun x => if x.id == tid then f x else x) hj
  simpa [updIf, hne] using this

/-- The member carrying the keyed id is mapped through the payload. -/
theorem mem_updIf_hit {tid : Nat} {f : QueueItem → QueueItem} {j : QueueItem}
    {l : List QueueItem} (hj : j ∈ l) (heq : j.id = tid) : f j ∈ updIf tid f l := by
  have := List.mem_map_of_mem (fun x => if x.id == tid then f x else x) hj
  simpa [updIf, heq] using this

/-- Every member of a conditional update is the image of a member of the
original list. -/
theorem of_mem_updIf {tid : Nat} {f : QueueItem → QueueItem} {x : QueueItem}
    {l : List QueueItem} (hx : x ∈ updIf tid f l) :
    ∃ j ∈ l, x = if j.id = tid then f j else j := by
  rcases List.mem_map.mp hx with ⟨j, hj, hx⟩
  exact ⟨j, hj, by simpa using hx.symm⟩

/-- Updating the unique item satisfying `p` into one violating `p`
decrements the `p`-count by one. -/
theorem countP_updIf {l : List QueueItem} (hnd : (l.map QueueItem.id).Nodup)
    {t : QueueItem} (ht : t ∈ l) (f : QueueItem → QueueItem)
    (p : QueueItem → Bool) (hpt : p t = true) (hpf : p (f t) = false) :
    (updIf t.id f l).countP p + 1 = l.countP p := by
  induction l with
  | nil => cases ht
  | cons a tl ih =>
    have hnd' : a.id ∉ List.map QueueItem.id tl ∧ (List.map QueueItem.id tl).Nodup := by
      simpa using hnd
    by_cases hc : a.id = t.id
    · have hat : a = t := eq_of_mem_of_id_eq hnd (List.mem_cons_self a tl) ht hc
      subst hat
      have htl : updIf a.id f tl = tl :=
        updIf_eq_self (fun j hj hjid => hnd'.1 (hjid ▸ List.mem_map_of_mem _ hj))
      have hhead : (if (a.id == a.id) = true then f a else a) = f a := if_pos (by simp)
      simp only [updIf, List.map_cons, hhead]
      rw [show List.map (fun j => if (j.id == a.id) = true then f j else j) tl = tl from htl]
      rw [List.countP_cons, List.countP_cons]
      simp [hpt, hpf]
    · have ht' : t ∈ tl := by
        rcases List.mem_cons.mp ht with h1 | h2
        · exact absurd (by rw [h1]) hc
        · exact h2
      have hhead : (if (a.id == t.id) = true then f a else a) = a := if_neg (by simpa using hc)
      simp only [updIf, List.map_cons, hhead]
      rw [List.countP_cons, List.countP_cons]
      have hih := ih hnd'.2 ht'
      simp only [updIf] at hih
      omega

/-- The Dispatcher's selection returns a pending member of the list. -/
theorem selectBest_mem : ∀ {l : List QueueItem} {b : QueueItem},
    selectBest l = some b → b ∈ l ∧ b.status = QStatus.pending := by
  intro l
  induction l with
  | nil => intro b h; cases h
  | cons a t ih =>
    intro b h
    cases hsel : selectBest t with
    | none =>
      by_cases ha : a.status = QStatus.pending
      · simp only [selectBest, hsel] at h
        rw [if_pos (by simpa using ha)] at h
        cases h; exact ⟨List.mem_cons_self a t, ha⟩
      · simp only [selectBest, hsel] at h
        rw [if_neg (by simpa using ha)] at h
        cases h
    | some c =>
      rcases ih hsel with ⟨hcm, hcp⟩
      by_cases ha : a.status = QStatus.pending
      · simp only [selectBest, hsel] at h
        rw [if_pos (by simpa using ha)] at h
        by_cases hb : better a c = true
        · rw [if_pos hb] at h; cases h; exact ⟨List.mem_cons_of_mem a hcm, hcp⟩
        · rw [if_neg hb] at h; cases h; exact ⟨List.mem_cons_self a t, ha⟩
      · simp only [selectBest, hsel] at h
        rw [if_neg (by simpa using ha)] at h
        cases h; exact ⟨List.mem_cons_of_mem a hcm, hcp⟩

/-- The Dispatcher's selection fails exactly when no member is pending. -/
theorem selectBest_eq_none : ∀ {l : List QueueItem},
    selectBest l = none ↔ ∀ it ∈ l, it.status ≠ QStatus.pending := by
  intro l
  induction l with
  | nil => simp [selectBest]
  | cons a t ih =>
    cases hsel : selectBest t with
    | none =>
      by_cases ha : a.status = QStatus.pending
      · simp only [selectBest, hsel]
        rw [if_pos (by simpa using ha)]
        constructor
        · intro h; cases h
        · intro h; exact absurd ha (h a (List.mem_cons_self a t))
      · simp only [selectBest, hsel]
        rw [if_neg (by simpa using ha)]
        constructor
        · intro _ it hit
          rcases List.mem_cons.mp hit with h1 | h2
          · rw [h1]; exact ha
          · exact (ih.mp hsel) it h2
        · intro _; rfl
    | some c =>
      have hcp := (selectBest_mem hsel).2
      have hcm := (selectBest_mem hsel).1
      constructor
      · intro h
        by_cases ha : a.status = QStatus.pending
        · simp only [selectBest, hsel] at h
          rw [if_pos (by simpa using ha)] at h
          cases h
        · simp only [selectBest, hsel] at h
          rw [if_neg (by simpa using ha)] at h
          cases h
      · intro h
        exact absurd hcp (h c (List.mem_cons_of_mem a hcm))

/-- Inversion of a successful claim: the Dispatcher selected a pending
item, and the new state is that one row conditionally rewritten. -/
theorem claimNext_ok_inv {r : String} {now : Nat} {s : EngineState}
    {p : EngineState × QueueItem} (h : claimNext r now s = Except.ok p) :
    ∃ best, selectBest s.items = some best ∧
      p.2 = { best with
        status := QStatus.in_progress
        assigned_to := some r
        lease_start := some now } ∧
      p.1 = { s with items := updIf best.id (fun _ => p.2) s.items } := by
  unfold claimNext at h
  cases hsel : selectBest s.items with
  | none => rw [hsel] at h; cases h
  | some best =>
    rw [hsel] at h
    cases h
    exact ⟨best, rfl, rfl, rfl⟩

/-- A claim fails exactly on an empty pending set, and then reports
EmptyQueueError. -/
theorem claimNext_error_iff {r : String} {now : Nat} {s : EngineState} :
    (∃ e, claimNext r now s = Except.error e) ↔ pendingCount s = 0 := by
  constructor
  · rintro ⟨e, h⟩
    unfold claimNext at h
    cases hsel : selectBest s.items with
    | none =>
      have := selectBest_eq_none.mp hsel
      unfold pendingCount
      rw [List.countP_eq_zero]
      intro it hit
      simpa using this it hit
    | some best => rw [hsel] at h; cases h
  · intro h
    have : selectBest s.items = none := by
      rw [selectBest_eq_none]
      unfold pendingCount at h
      rw [List.countP_eq_zero] at h
      intro it hit
      simpa using h it hit
    exact ⟨EngError.EmptyQueueError, by unfold claimNext; rw [this]⟩

/-- Consequences of one successful atomic claim on an id-nodup store:
ids are stable, the claimed item was pending and is now leased to the
caller, every other row is untouched, and the pending count drops by
exactly one. -/
theorem claimNext_ok_facts {r : String} {now : Nat} {s : EngineState}
    {p : EngineState × QueueItem} (hnd : NodupIds s)
    (h : claimNext r now s = Except.ok p) :
    p.1.items.map QueueItem.id = s.items.map QueueItem.id ∧
    NodupIds p.1 ∧
    p.2 ∈ p.1.items ∧
    p.2.status = QStatus.in_progress ∧
    p.2.assigned_to = some r ∧
    (∃ best ∈ s.items, best.status = QStatus.pending ∧ best.id = p.2.id) ∧
    (∀ j ∈ s.items, j.id ≠ p.2.id → j ∈ p.1.items) ∧
    (∀ x ∈ p.1.items, x.status = QStatus.pending → x ∈ s.items) ∧
    pendingCount p.1 + 1 = pendingCount s ∧
    p.1.skills = s.skills ∧ p.1.categories = s.categories ∧
    p.1.history = s.history := by
  rcases claimNext_ok_inv h with ⟨best, hsel, hc, hs⟩
  rcases selectBest_mem hsel with ⟨hbm, hbp⟩
  have hcid : p.2.id = best.id := by rw [hc]
  have hids : p.1.items.map QueueItem.id = s.items.map QueueItem.id := by
    rw [hs]
    exact updIf_map_id _ _ (fun j hj => by rw [hcid, hj]) s.items
  have hnd1 : NodupIds p.1 := by unfold NodupIds; rw [hids]; exact hnd
  refine ⟨hids, hnd1, ?_, by rw [hc], by rw [hc], ⟨best, hbm, hbp, hcid.symm⟩, ?_, ?_, ?_,
    by rw [hs], by rw [hs], by rw [hs]⟩
  · rw [hs]
    exact mem_updIf_hit hbm rfl
  · intro j hj hne
    rw [hs]
    exact mem_updIf_of_ne hj (by rw [hcid] at hne; exact hne)
  · intro x hx hxp
    rw [hs] at hx
    rcases of_mem_updIf hx with ⟨j, hj, hxe⟩
    by_cases hje : j.id = best.id
    · rw [if_pos hje] at hxe
      rw [hxe, hc] at hxp
      cases hxp
    · rw [if_neg hje] at hxe
      rw [hxe]; exact hj
  · have := countP_updIf (t := best) hnd hbm (fun _ => p.2)
      (fun it => it.status == QStatus.pending)
      (by simpa using hbp) (by rw [hc]; simp)
    unfold pendingCount
    rw [hs]
    exact this

/-- Claims already leased survive the rest of a claim run: an item that is
in_progress is never selected again, so it reaches the final state
unchanged. -/
theorem runClaims_keeps_inprogress (now : Nat) (rs : List String) :
    ∀ s : EngineState, NodupIds s → ∀ it ∈ s.items,
      it.status = QStatus.in_progress → it ∈ (runClaims now rs s).1.items := by
  induction rs with
  | nil => intro s _ it hit _; exact hit
  | cons r rest ih =>
    intro s hnd it hit hst
    unfold runClaims
    cases hcl : claimNext r now s with
    | error e => exact ih s hnd it hit hst
    | ok p =>
      rcases claimNext_ok_facts hnd hcl with
        ⟨_, hnd1, _, hcst, _, ⟨best, hbm, hbp, hbid⟩, hframe, _, _, _, _, _⟩
      have hne : it.id ≠ p.2.id := by
        intro he
        have : it = best := eq_of_mem_of_id_eq hnd hit hbm (by rw [he, ← hbid])
        rw [this] at hst
        rw [hbp] at hst
        cases hst
      exact ih p.1 hnd1 it (hframe it hit hne) hst

/-- Combined specification of a claim run, proved in one induction: the
number of successful claims, distinctness of the claimed rows, their
provenance from pending rows, the lease held in the final state, and
conservation of the initially pending rows. -/
theorem runClaims_spec (now : Nat) (rs : List String) :
    ∀ s : EngineState, NodupIds s →
      (runClaims now rs s).2.length = min rs.length (pendingCount s) ∧
      ((runClaims now rs s).2.map Prod.snd).Nodup ∧
      (∀ pr ∈ (runClaims now rs s).2, ∃ it ∈ s.items,
          it.id = pr.2 ∧ it.status = QStatus.pending) ∧
      (∀ pr ∈ (runClaims now rs s).2, ∃ it ∈ (runClaims now rs s).1.items,
          it.id = pr.2 ∧ it.status = QStatus.in_progress ∧
          it.assigned_to = some pr.1) ∧
      (∀ it ∈ s.items, it.status = QStatus.pending →
          it.id ∈ (runClaims now rs s).2.map Prod.snd ∨
          ∃ it2 ∈ (runClaims now rs s).1.items,
            it2.id = it.id ∧ it2.status = QStatus.pending) ∧
      NodupIds (runClaims now rs s).1 := by
  induction rs with
  | nil =>
    intro s hnd
    refine ⟨by simp [runClaims], by simp [runClaims], by simp [runClaims],
      by simp [runClaims], ?_, hnd⟩
    intro it hit hst
    exact Or.inr ⟨it, by simpa [runClaims] using hit, rfl, hst⟩
  | cons r rest ih =>
    intro s hnd
    unfold runClaims
    cases hcl : claimNext r now s with
    | error e =>
      have hpc : pendingCount s = 0 := claimNext_error_iff.mp ⟨e, hcl⟩
      rcases ih s hnd with ⟨hlen, hnodup, hprov, hlease, hcons, hnd'⟩
      refine ⟨?_, hnodup, hprov, hlease, hcons, hnd'⟩
      rw [hlen, hpc]
      simp
    | ok p =>
      rcases claimNext_ok_facts hnd hcl with
        ⟨hids, hnd1, hcmem, hcst, hca, ⟨best, hbm, hbp, hbid⟩, hframe, hback, hcount, _, _, _⟩
      rcases ih p.1 hnd1 with ⟨hlen, hnodup, hprov, hlease, hcons, hndf⟩
      refine ⟨?_, ?_, ?_, ?_, ?_, hndf⟩
      · simp only [List.length_cons, hlen]
        omega
      · simp only [List.map_cons, List.nodup_cons]
        refine ⟨?_, hnodup⟩
        intro hmem
        rcases List.mem_map.mp hmem with ⟨pr, hpr, hpre⟩
        rcases hprov pr hpr with ⟨it, hit, hitid, hitp⟩
        have : it = p.2 := eq_of_mem_of_id_eq hnd1 hit hcmem (by rw [hitid, hpre])
        rw [this] at hitp
        rw [hcst] at hitp
        cases hitp
      · intro pr hpr
        rcases List.mem_cons.mp hpr with hpr1 | hpr2
        · exact ⟨best, hbm, by rw [hpr1, hbid], hbp⟩
        · rcases hprov pr hpr2 with ⟨it, hit, hitid, hitp⟩
          exact ⟨it, hback it hit hitp, hitid, hitp⟩
      · intro pr hpr
        rcases List.mem_cons.mp hpr with hpr1 | hpr2
        · subst hpr1
          exact ⟨p.2, runClaims_keeps_inprogress now rest p.1 hnd1 p.2 hcmem hcst,
            rfl, hcst, hca⟩
        · exact hlease pr hpr2
      · intro it hit hst
        by_cases hne : it.id = p.2.id
        · exact Or.inl (by simp [hne])
        · rcases hcons it (hframe it hit hne) hst with hin | hfin
          · exact Or.inl (by simp only [List.map_cons]; exact List.mem_cons_of_mem _ hin)
          · exact Or.inr hfin

/-- Concrete category used to evaluate the theorems on closed inputs. -/
def exCategory : Category :=
  { id := 3, category_name := "tools", display_name := "Tools", icon := "T",
    color := "blue", sort_order := 1, is_active := true }

/-- Concrete inactive category. -/
def exCategoryInactive : Category :=
  { id := 4, category_name := "old", display_name := "Old", icon := "O",
    color := "gray", sort_order := 2, is_active := false }

/-- Concrete skill used to evaluate the theorems on closed inputs. -/
def exSkill : Skill :=
  { id := 1, skill_name := "Python", normalized_name := "python",
    category := none, validation_status := VStatus.pending,
    usage_count := 50, created_at := 0 }

/-- Concrete pending queue item. -/
def exItem : QueueItem :=
  { id := 10, skill_id := 1, status := QStatus.pending, priority := 80,
    assigned_to := none, lease_start := none, source_count := 50,
    context_samples := [], created_at := 0 }

/-- Concrete engine state with one pending item. -/
def exState : EngineState :=
  { skills := [exSkill], items := [exItem],
    categories := [exCategory, exCategoryInactive], history := [] }

/-- C1: for every N concurrent invocations of claimNext by distinct
reviewers against a queue holding M pending items - modelled as an
arbitrary sequential interleaving of the N atomic claims, which the
spec's atomicity requirement makes equivalent to the concurrent run -
exactly min(N,M) distinct items end up claimed, each transitioned to
in_progress with its caller as assignee; no item is claimed by two
callers and no pending item is lost. -/
theorem claim_concurrency_min (now : Nat) (rs : List String) (s : EngineState)
    (hnd : NodupIds s) (hrs : rs.Nodup) :
    (runClaims now rs s).2.length = min rs.length (pendingCount s) ∧
    ((runClaims now rs s).2.map Prod.snd).Nodup ∧
    (∀ pr ∈ (runClaims now rs s).2, ∃ it ∈ s.items,
        it.id = pr.2 ∧ it.status = QStatus.pending) ∧
    (∀ pr ∈ (runClaims now rs s).2, ∃ it ∈ (runClaims now rs s).1.items,
        it.id = pr.2 ∧ it.status = QStatus.in_progress ∧
        it.assigned_to = some pr.1) ∧
    (∀ it ∈ s.items, it.status = QStatus.pending →
        it.id ∈ (runClaims now rs s).2.map Prod.snd ∨
        ∃ it2 ∈ (runClaims now rs s).1.items,
          it2.id = it.id ∧ it2.status = QStatus.pending) := by
  rcases runClaims_spec now rs s hnd with ⟨h1, h2, h3, h4, h5, _⟩
  exact ⟨h1, h2, h3, h4, h5⟩

/-- Witness for C1 at a concrete input: two distinct reviewers race for a
single pending item. -/
theorem claim_concurrency_min_witness :
    NodupIds exState ∧ (["alice", "bob"] : List String).Nodup ∧
    ((runClaims 5 ["alice", "bob"] exState).2.length =
        min (["alice", "bob"] : List String).length (pendingCount exState) ∧
      ((runClaims 5 ["alice", "bob"] exState).2.map Prod.snd).Nodup ∧
      (∀ pr ∈ (runClaims 5 ["alice", "bob"] exState).2, ∃ it ∈ exState.items,
          it.id = pr.2 ∧ it.status = QStatus.pending) ∧
      (∀ pr ∈ (runClaims 5 ["alice", "bob"] exState).2,
          ∃ it ∈ (runClaims 5 ["alice", "bob"] exState).1.items,
            it.id = pr.2 ∧ it.status = QStatus.in_progress ∧
            it.assigned_to = some pr.1) ∧
      (∀ it ∈ exState.items, it.status = QStatus.pending →
          it.id ∈ (runClaims 5 ["alice", "bob"] exState).2.map Prod.snd ∨
          ∃ it2 ∈ (runClaims 5 ["alice", "bob"] exState).1.items,
            it2.id = it.id ∧ it2.status = QStatus.pending)) :=
  ⟨by decide, by decide,
    claim_concurrency_min 5 ["alice", "bob"] exState (by decide) (by decide)⟩

/-- Every element of a list is at most its max fold. -/
theorem le_fold_max {l : List Nat} : ∀ x ∈ l, x ≤ l.foldr (fun a b => max a b) 0 := by
  induction l with
  | nil => intro x hx; cases hx
  | cons a t ih =>
    intro x hx
    rcases List.mem_cons.mp hx with h1 | h2
    · subst h1; exact le_max_left _ _
    · exact le_trans (ih x h2) (le_max_right _ _)

/-- The fresh id is genuinely fresh. -/
theorem freshId_not_mem {l : List Nat} : freshId l ∉ l := by
  intro h
  have := le_fold_max _ h
  unfold freshId at this
  omega

/-- Appending one fresh key keeps a key list nodup. -/
theorem nodup_append_fresh {l : List Nat} (h : l.Nodup) {x : Nat} (hx : x ∉ l) :
    (l ++ [x]).Nodup := by
  rw [List.nodup_append]
  exact ⟨h, List.nodup_singleton x, by
    intro a ha hb
    rcases List.mem_singleton.mp hb with rfl
    exact hx ha⟩

/-- Resolving membership in a conditional per-id update over an id-nodup
list: the row either passed through untouched or is the payload image of
its old value. -/
theorem updIf_resolve {l : List QueueItem} (hnd : (l.map QueueItem.id).Nodup)
    {tid : Nat} {f : QueueItem → QueueItem}
    {it it2 : QueueItem} (hit : it ∈ l) (hit2 : it2 ∈ updIf tid f l)
    (hid : it2.id = it.id)
    (hfid : ∀ j : QueueItem, j.id = tid → (f j).id = j.id) :
    (it2 = it ∧ it.id ≠ tid) ∨ (it2 = f it ∧ it.id = tid) := by
  rcases of_mem_updIf hit2 with ⟨j, hj, he⟩
  by_cases hje : j.id = tid
  · rw [if_pos hje] at he
    have hj2 : it2.id = j.id := by rw [he, hfid j hje]
    have : j = it := eq_of_mem_of_id_eq hnd hj hit (by rw [← hj2, hid])
    subst this
    exact Or.inr ⟨he, hje⟩
  · rw [if_neg hje] at he
    have : j = it := eq_of_mem_of_id_eq hnd hj hit (by rw [← he, hid])
    subst this
    exact Or.inl ⟨he, hje⟩

/-- Resolving membership in a guarded batch update over an id-nodup list:
the row either failed the guard and passed through untouched, or passed
the guard and is the image of its old value. -/
theorem mapIf_resolve {l : List QueueItem} (hnd : (l.map QueueItem.id).Nodup)
    {p : QueueItem → Bool} {f : QueueItem → QueueItem}
    {it it2 : QueueItem} (hit : it ∈ l)
    (hit2 : it2 ∈ l.map (fun j => if p j then f j else j))
    (hid : it2.id = it.id)
    (hfid : ∀ j : QueueItem, p j = true → (f j).id = j.id) :
    (it2 = it ∧ p it = false) ∨ (it2 = f it ∧ p it = true) := by
  rcases List.mem_map.mp hit2 with ⟨j, hj, he⟩
  by_cases hp : p j = true
  · rw [if_pos hp] at he
    have hj2 : it2.id = j.id := by rw [← he, hfid j hp]
    have : j = it := eq_of_mem_of_id_eq hnd hj hit (by rw [← hj2, hid])
    subst this
    exact Or.inr ⟨he.symm, hp⟩
  · rw [if_neg hp] at he
    have : j = it := eq_of_mem_of_id_eq hnd hj hit (by rw [he, hid])
    subst this
    exact Or.inl ⟨he.symm, by simpa using hp⟩

/-- Resolving membership after appending one fresh row: an old id can only
name its old row. -/
theorem append_fresh_resolve {l : List QueueItem} (hnd : (l.map QueueItem.id).Nodup)
    {new : QueueItem} (hfresh : new.id ∉ l.map QueueItem.id)
    {it it2 : QueueItem} (hit : it ∈ l) (hit2 : it2 ∈ l ++ [new])
    (hid : it2.id = it.id) : it2 = it := by
  rcases List.mem_append.mp hit2 with h1 | h2
  · exact eq_of_mem_of_id_eq hnd h1 hit hid
  · rcases List.mem_singleton.mp h2 with rfl
    exact absurd (hid ▸ List.mem_map_of_mem QueueItem.id hit) hfresh

/-- The successful item lookup returns the member carrying that id. -/
theorem findItem_some {itemId : Nat} {s : EngineState} {it0 : QueueItem}
    (h : findItem itemId s = some it0) : it0 ∈ s.items ∧ it0.id = itemId := by
  unfold findItem at h
  exact ⟨List.mem_of_find?_eq_some h, by simpa using List.find?_some h⟩

/-- A non-terminal status is pending or in_progress. -/
theorem isTerminal_false {st : QStatus} (h : isTerminal st = false) :
    st = QStatus.pending ∨ st = QStatus.in_progress := by
  cases st <;> simp_all [isTerminal]

/-- A stuck item is in_progress with an expired lease. -/
theorem isStuck_true {timeout now : Nat} {it : QueueItem}
    (h : isStuck timeout now it = true) :
    it.status = QStatus.in_progress ∧
    ∃ t, it.lease_start = some t ∧ t + timeout < now := by
  unfold isStuck at h
  rcases Bool.and_eq_true_iff.mp h with ⟨h1, h2⟩
  refine ⟨by simpa using h1, ?_⟩
  cases hl : it.lease_start with
  | none => rw [hl] at h2; cases h2
  | some t => rw [hl] at h2; exact ⟨t, rfl, by simpa using h2⟩

/-- Inversion of a successful approve: a non-terminal item and an active
category were found, the row moves to completed, the skill records the
approval and the chosen category, and exactly one approved audit record
is appended. -/
theorem approve_ok_inv {itemId : Nat} {cid : Option Nat} {r : String}
    {s s2 : EngineState} (h : approve itemId cid r s = Except.ok s2) :
    ∃ it0 cidv c, findItem itemId s = some it0 ∧ isTerminal it0.status = false ∧
      cid = some cidv ∧ findCategory cidv s = some c ∧ c.is_active = true ∧
      s2.items = updIf itemId
        (fun j => { j with
            status := QStatus.completed
            assigned_to := none
            lease_start := none }) s.items ∧
      s2.skills = s.skills.map (fun sk =>
        if sk.id == it0.skill_id then
          { sk with validation_status := VStatus.approved, category := some cidv }
        else sk) ∧
      s2.history = s.history ++
        [{ skill_id := it0.skill_id
           item_id := itemId
           action := HAction.approved
           prior_category := skillCategory it0.skill_id s
           new_category := some cidv
           prior_status := it0.status
           new_status := QStatus.completed
           reviewer := r
           note := "" }] ∧
      s2.categories = s.categories := by
  unfold approve at h
  split at h
  · cases h
  · rename_i it0 heq
    split at h
    · cases h
    · rename_i hterm
      split at h
      · cases h
      · rename_i cidv
        split at h
        · cases h
        · rename_i c heqc
          split at h
          · rename_i hact
            cases h
            exact ⟨it0, cidv, c, heq, by simpa using hterm, rfl, heqc, hact,
              rfl, rfl, rfl, rfl⟩
          · cases h

/-- Inversion of a successful reject. -/
theorem reject_ok_inv {itemId : Nat} {r : String} {s s2 : EngineState}
    (h : reject itemId r s = Except.ok s2) :
    ∃ it0, findItem itemId s = some it0 ∧ isTerminal it0.status = false ∧
      s2.items = updIf itemId
        (fun j => { j with
            status := QStatus.completed
            assigned_to := none
            lease_start := none }) s.items ∧
      s2.skills = s.skills.map (fun sk =>
        if sk.id == it0.skill_id then
          { sk with validation_status := VStatus.rejected }
        else sk) ∧
      s2.history = s.history ++
        [{ skill_id := it0.skill_id
           item_id := itemId
           action := HAction.rejected
           prior_category := skillCategory it0.skill_id s
           new_category := skillCategory it0.skill_id s
           prior_status := it0.status
           new_status := QStatus.completed
           reviewer := r
           note := "" }] ∧
      s2.categories = s.categories := by
  unfold reject at h
  split at h
  · cases h
  · rename_i it0 heq
    split at h
    · cases h
    · rename_i hterm
      cases h
      exact ⟨it0, heq, by simpa using hterm, rfl, rfl, rfl, rfl⟩

/-- Inversion of a successful skip. -/
theorem skip_ok_inv {itemId : Nat} {r : String} {s s2 : EngineState}
    (h : skip itemId r s = Except.ok s2) :
    ∃ it0, findItem itemId s = some it0 ∧ isTerminal it0.status = false ∧
      s2.items = updIf itemId
        (fun j => { j with
            status := QStatus.skipped
            assigned_to := none
            lease_start := none }) s.items ∧
      s2.skills = s.skills ∧
      s2.history = s.history ++
        [{ skill_id := it0.skill_id
           item_id := itemId
           action := HAction.skipped
           prior_category := skillCategory it0.skill_id s
           new_category := skillCategory it0.skill_id s
           prior_status := it0.status
           new_status := QStatus.skipped
           reviewer := r
           note := "" }] ∧
      s2.categories = s.categories := by
  unfold skip at h
  split at h
  · cases h
  · rename_i it0 heq
    split at h
    · cases h
    · rename_i hterm
      cases h
      exact ⟨it0, heq, by simpa using hterm, rfl, rfl, rfl, rfl⟩

/-- A guarded batch update whose payload keeps ids fixed keeps the id
sequence of the list. -/
theorem mapIf_map_id (p : QueueItem → Bool) (f : QueueItem → QueueItem)
    (hfid : ∀ j : QueueItem, p j = true → (f j).id = j.id) (l : List QueueItem) :
    (l.map (fun j => if p j then f j else j)).map QueueItem.id =
      l.map QueueItem.id := by
  induction l with
  | nil => rfl
  | cons a t ih =>
    have hhead : (if p a = true then f a else a).id = a.id := by
      by_cases hc : p a = true
      · rw [if_pos hc]; exact hfid a hc
      · rw [if_neg hc]
    simp only [List.map_cons] at ih ⊢
    rw [hhead, ih]

/-- The item list after an enqueue is either one row conditionally
rewritten without touching id or status (the merge branch) or the old
list with one fresh pending row appended. -/
theorem enqueue_items_shape (initScore : Nat → Nat) (now : Nat)
    (cand : Candidate) (s : EngineState) :
    (∃ tid f, (∀ j : QueueItem, (f j).id = j.id) ∧
       (∀ j : QueueItem, (f j).status = j.status) ∧
       (enqueue initScore now cand s).items = updIf tid f s.items) ∨
    (∃ new : QueueItem, new.id = freshId (s.items.map QueueItem.id) ∧
       new.status = QStatus.pending ∧
       (enqueue initScore now cand s).items = s.items ++ [new]) := by
  unfold enqueue
  split
  · split
    · rename_i sk hfs openIt hfi
      exact Or.inl ⟨openIt.id,
        (fun j => { j with
            source_count := j.source_count + cand.count
            context_samples := j.context_samples ++ cand.context_samples }),
        fun j => rfl, fun j => rfl, rfl⟩
    · exact Or.inr ⟨_, rfl, rfl, rfl⟩
  · exact Or.inr ⟨_, rfl, rfl, rfl⟩

/-- Every engine step keeps the queue-item ids nodup. -/
theorem applyOp_nodup (op : Op) (s : EngineState) (hnd : NodupIds s) :
    NodupIds (applyOp op s) := by
  cases op with
  | enqueue initScore now cand =>
    rcases enqueue_items_shape initScore now cand s with
      ⟨tid, f, hfid, _, hsh⟩ | ⟨new, hnew, _, hsh⟩
    · unfold NodupIds
      show ((enqueue initScore now cand s).items.map QueueItem.id).Nodup
      rw [hsh, updIf_map_id _ _ (fun j _ => hfid j)]
      exact hnd
    · unfold NodupIds
      show ((enqueue initScore now cand s).items.map QueueItem.id).Nodup
      rw [hsh, List.map_append]
      exact nodup_append_fresh hnd (by rw [hnew]; exact freshId_not_mem)
  | claim r now =>
    simp only [applyOp]
    cases hcl : claimNext r now s with
    | error e => exact hnd
    | ok p => exact (claimNext_ok_facts hnd hcl).2.1
  | approve itemId cid r =>
    simp only [applyOp]
    cases ha : approve itemId cid r s with
    | error e => exact hnd
    | ok s2 =>
      rcases approve_ok_inv ha with ⟨it0, cidv, c, _, _, _, _, _, hitems, _, _, _⟩
      unfold NodupIds
      have hm := updIf_map_id itemId
        (fun j => { j with
            status := QStatus.completed
            assigned_to := none
            lease_start := none })
        (fun j _ => rfl) s.items
      rw [hitems, hm]
      exact hnd
  | reject itemId r =>
    simp only [applyOp]
    cases ha : reject itemId r s with
    | error e => exact hnd
    | ok s2 =>
      rcases reject_ok_inv ha with ⟨it0, _, _, hitems, _, _, _⟩
      unfold NodupIds
      have hm := updIf_map_id itemId
        (fun j => { j with
            status := QStatus.completed
            assigned_to := none
            lease_start := none })
        (fun j _ => rfl) s.items
      rw [hitems, hm]
      exact hnd
  | skip itemId r =>
    simp only [applyOp]
    cases ha : skip itemId r s with
    | error e => exact hnd
    | ok s2 =>
      rcases skip_ok_inv ha with ⟨it0, _, _, hitems, _, _, _⟩
      unfold NodupIds
      have hm := updIf_map_id itemId
        (fun j => { j with
            status := QStatus.skipped
            assigned_to := none
            lease_start := none })
        (fun j _ => rfl) s.items
      rw [hitems, hm]
      exact hnd
  | reset timeout now =>
    unfold NodupIds applyOp resetStuckItems
    simp only
    have hm := mapIf_map_id (isStuck timeout now) resetItem
      (fun j _ => rfl) s.items
    rw [hm]
    exact hnd
  | reprio score now =>
    unfold NodupIds applyOp reprioritize
    simp only
    have hm := mapIf_map_id (fun it => it.status == QStatus.pending)
      (fun it => { it with priority := itemScore score now s.skills it })
      (fun j _ => rfl) s.items
    rw [hm]
    exact hnd

/-- One engine step moves each item status only along an allowed edge. -/
theorem applyOp_edges (op : Op) (s : EngineState) (hnd : NodupIds s) :
    ∀ it ∈ s.items, ∀ it2 ∈ (applyOp op s).items, it2.id = it.id →
      edgeOk op it.status it2.status := by
  intro it hit it2 hit2 hid
  cases op with
  | enqueue initScore now cand =>
    simp only [applyOp] at hit2
    rcases enqueue_items_shape initScore now cand s with
      ⟨tid, f, hfid, hfst, hsh⟩ | ⟨new, hnew, _, hsh⟩
    · rw [hsh] at hit2
      rcases updIf_resolve hnd hit hit2 hid (fun j _ => hfid j) with ⟨he, _⟩ | ⟨he, _⟩
      · exact Or.inl (by rw [he])
      · exact Or.inl (by rw [he, hfst])
    · rw [hsh] at hit2
      have he := append_fresh_resolve hnd
        (by rw [hnew]; exact freshId_not_mem) hit hit2 hid
      exact Or.inl (by rw [he])
  | claim r now =>
    revert hit2
    simp only [applyOp]
    cases hcl : claimNext r now s with
    | error e =>
      intro hit2
      exact Or.inl (by rw [eq_of_mem_of_id_eq hnd hit2 hit hid])
    | ok p =>
      intro hit2
      rcases claimNext_ok_inv hcl with ⟨best, hsel, hc, hs⟩
      rcases selectBest_mem hsel with ⟨hbm, hbp⟩
      rw [show p.1.items = updIf best.id (fun _ => p.2) s.items from by rw [hs]] at hit2
      rcases updIf_resolve hnd hit hit2 hid (fun j hj => by rw [hc]; exact hj.symm) with
        ⟨he, _⟩ | ⟨he, hidb⟩
      · exact Or.inl (by rw [he])
      · have hib : it = best := eq_of_mem_of_id_eq hnd hit hbm hidb
        have h1 : it.status = QStatus.pending := by rw [hib, hbp]
        have h2 : it2.status = QStatus.in_progress := by rw [he, hc]
        rw [h1, h2]
        simp [edgeOk]
  | approve itemId cid r =>
    revert hit2
    simp only [applyOp]
    cases ha : approve itemId cid r s with
    | error e =>
      intro hit2
      exact Or.inl (by rw [eq_of_mem_of_id_eq hnd hit2 hit hid])
    | ok s2 =>
      intro hit2
      rcases approve_ok_inv ha with ⟨it0, cidv, c, hfi, hterm, _, _, _, hitems, _, _, _⟩
      rw [hitems] at hit2
      rcases updIf_resolve hnd hit hit2 hid (fun j _ => rfl) with ⟨he, _⟩ | ⟨he, hidi⟩
      · exact Or.inl (by rw [he])
      · rcases findItem_some hfi with ⟨h0m, h0id⟩
        have hi0 : it = it0 := eq_of_mem_of_id_eq hnd hit h0m (by rw [hidi, h0id])
        have h2 : it2.status = QStatus.completed := by rw [he]
        rcases isTerminal_false (hi0 ▸ hterm) with h1 | h1 <;>
          · rw [h1, h2]; simp [edgeOk]
  | reject itemId r =>
    revert hit2
    simp only [applyOp]
    cases ha : reject itemId r s with
    | error e =>
      intro hit2
      exact Or.inl (by rw [eq_of_mem_of_id_eq hnd hit2 hit hid])
    | ok s2 =>
      intro hit2
      rcases reject_ok_inv ha with ⟨it0, hfi, hterm, hitems, _, _, _⟩
      rw [hitems] at hit2
      rcases updIf_resolve hnd hit hit2 hid (fun j _ => rfl) with ⟨he, _⟩ | ⟨he, hidi⟩
      · exact Or.inl (by rw [he])
      · rcases findItem_some hfi with ⟨h0m, h0id⟩
        have hi0 : it = it0 := eq_of_mem_of_id_eq hnd hit h0m (by rw [hidi, h0id])
        have h2 : it2.status = QStatus.completed := by rw [he]
        rcases isTerminal_false (hi0 ▸ hterm) with h1 | h1 <;>
          · rw [h1, h2]; simp [edgeOk]
  | skip itemId r =>
    revert hit2
    simp only [applyOp]
    cases ha : skip itemId r s with
    | error e =>
      intro hit2
      exact Or.inl (by rw [eq_of_mem_of_id_eq hnd hit2 hit hid])
    | ok s2 =>
      intro hit2
      rcases skip_ok_inv ha with ⟨it0, hfi, hterm, hitems, _, _, _⟩
      rw [hitems] at hit2
      rcases updIf_resolve hnd hit hit2 hid (fun j _ => rfl) with ⟨he, _⟩ | ⟨he, hidi⟩
      · exact Or.inl (by rw [he])
      · rcases findItem_some hfi with ⟨h0m, h0id⟩
        have hi0 : it = it0 := eq_of_mem_of_id_eq hnd hit h0m (by rw [hidi, h0id])
        have h2 : it2.status = QStatus.skipped := by rw [he]
        rcases isTerminal_false (hi0 ▸ hterm) with h1 | h1 <;>
          · rw [h1, h2]; simp [edgeOk]
  | reset timeout now =>
    have hit2' : it2 ∈ s.items.map (fun j =>
        if isStuck timeout now j then resetItem j else j) := hit2
    rcases mapIf_resolve hnd hit hit2' hid (fun j _ => rfl) with ⟨he, _⟩ | ⟨he, hstuck⟩
    · exact Or.inl (by rw [he])
    · have h1 : it.status = QStatus.in_progress := (isStuck_true hstuck).1
      have h2 : it2.status = QStatus.pending := by rw [he]; rfl
      rw [h1, h2]
      simp [edgeOk, isReaper]
  | reprio score now =>
    have hit2' : it2 ∈ s.items.map (fun j =>
        if j.status == QStatus.pending then
          { j with priority := itemScore score now s.skills j }
        else j) := hit2
    rcases mapIf_resolve hnd hit hit2' hid (fun j _ => rfl) with ⟨he, _⟩ | ⟨he, _⟩
    · exact Or.inl (by rw [he])
    · exact Or.inl (by rw [he])

/-- Running any operation sequence keeps the ids nodup. -/
theorem runOps_nodup (ops : List Op) (s : EngineState) (hnd : NodupIds s) :
    NodupIds (runOps ops s) := by
  induction ops generalizing s with
  | nil => exact hnd
  | cons op rest ih => exact ih _ (applyOp_nodup op s hnd)

/-- C2: along every reachable operation sequence, each status change of a
queue item follows one of the allowed edges - pending to in_progress,
in_progress to completed or skipped, pending to completed or skipped, or
the sole backward edge in_progress to pending taken only by the Reaper;
nothing ever leaves completed or skipped. -/
theorem status_edges_reachable (ops : List Op) (op : Op) (s0 : EngineState)
    (hnd : NodupIds s0) :
    ∀ it ∈ (runOps ops s0).items, ∀ it2 ∈ (applyOp op (runOps ops s0)).items,
      it2.id = it.id → edgeOk op it.status it2.status :=
  applyOp_edges op (runOps ops s0) (runOps_nodup ops s0 hnd)

/-- Witness for C2 at a concrete input: claim then approve on the
one-item state. -/
theorem status_edges_reachable_witness :
    NodupIds exState ∧
    (∀ it ∈ (runOps [Op.claim "alice" 5] exState).items,
      ∀ it2 ∈ (applyOp (Op.approve 10 (some 3) "alice")
          (runOps [Op.claim "alice" 5] exState)).items,
        it2.id = it.id →
          edgeOk (Op.approve 10 (some 3) "alice") it.status it2.status) :=
  ⟨by decide,
    status_edges_reachable [Op.claim "alice" 5] (Op.approve 10 (some 3) "alice")
      exState (by decide)⟩

/-- Concrete terminal (completed) queue item. -/
def exItemDone : QueueItem :=
  { id := 11, skill_id := 1, status := QStatus.completed, priority := 60,
    assigned_to := none, lease_start := none, source_count := 7,
    context_samples := [], created_at := 0 }

/-- Concrete engine state whose only item is terminal. -/
def exStateDone : EngineState :=
  { skills := [exSkill], items := [exItemDone],
    categories := [exCategory, exCategoryInactive], history := [] }

/-- C3: on an item already completed or skipped, approve, reject and skip
all fail with InvalidTransitionError (the spec's ConflictError of section
5 names the same refusal) and leave the state unchanged; none silently
succeeds as a no-op. -/
theorem terminal_item_actions_fail (s : EngineState) (hnd : NodupIds s)
    (it : QueueItem) (hit : it ∈ s.items)
    (hst : it.status = QStatus.completed ∨ it.status = QStatus.skipped)
    (cid : Option Nat) (r : String) :
    approve it.id cid r s = Except.error EngError.InvalidTransitionError ∧
    reject it.id r s = Except.error EngError.InvalidTransitionError ∧
    skip it.id r s = Except.error EngError.InvalidTransitionError ∧
    applyOp (Op.approve it.id cid r) s = s ∧
    applyOp (Op.reject it.id r) s = s ∧
    applyOp (Op.skip it.id r) s = s := by
  have hterm : isTerminal it.status = true := by
    rcases hst with h | h <;> simp [isTerminal, h]
  have hfi : findItem it.id s = some it := by
    unfold findItem; exact find?_eq_of_mem hnd hit
  refine ⟨?_, ?_, ?_, ?_, ?_, ?_⟩
  · simp [approve, hfi, hterm]
  · simp [reject, hfi, hterm]
  · simp [skip, hfi, hterm]
  · simp [applyOp, approve, hfi, hterm]
  · simp [applyOp, reject, hfi, hterm]
  · simp [applyOp, skip, hfi, hterm]

/-- Witness for C3 at a concrete input: a completed item refuses all
three actions. -/
theorem terminal_item_actions_fail_witness :
    NodupIds exStateDone ∧ exItemDone ∈ exStateDone.items ∧
    (exItemDone.status = QStatus.completed ∨
      exItemDone.status = QStatus.skipped) ∧
    (approve exItemDone.id (some 3) "alice" exStateDone =
        Except.error EngError.InvalidTransitionError ∧
      reject exItemDone.id "alice" exStateDone =
        Except.error EngError.InvalidTransitionError ∧
      skip exItemDone.id "alice" exStateDone =
        Except.error EngError.InvalidTransitionError ∧
      applyOp (Op.approve exItemDone.id (some 3) "alice") exStateDone = exStateDone ∧
      applyOp (Op.reject exItemDone.id "alice") exStateDone = exStateDone ∧
      applyOp (Op.skip exItemDone.id "alice") exStateDone = exStateDone) :=
  ⟨by decide, by decide, by decide,
    terminal_item_actions_fail exStateDone (by decide) exItemDone (by decide)
      (by decide) (some 3) "alice"⟩

/-- C4: on a pending or in_progress item, approve with a null category
always fails with ValidationError and changes nothing; approve with a
category id resolving to an existing active category completes the item,
marks the skill approved with that category, and appends exactly one
approved audit record. -/
theorem approve_contract (s : EngineState) (hnd : NodupIds s)
    (it : QueueItem) (hit : it ∈ s.items)
    (hst : it.status = QStatus.pending ∨ it.status = QStatus.in_progress)
    (r : String) :
    (approve it.id none r s = Except.error EngError.ValidationError ∧
      applyOp (Op.approve it.id none r) s = s) ∧
    (∀ cid c, findCategory cid s = some c → c.is_active = true →
      ∃ s2, approve it.id (some cid) r s = Except.ok s2 ∧
        (∃ it2 ∈ s2.items, it2.id = it.id ∧ it2.status = QStatus.completed) ∧
        (∀ sk ∈ s.skills, sk.id = it.skill_id →
          ∃ sk2 ∈ s2.skills, sk2.id = sk.id ∧
            sk2.validation_status = VStatus.approved ∧
            sk2.category = some cid) ∧
        (∃ rec, s2.history = s.history ++ [rec] ∧
          rec.action = HAction.approved)) := by
  have hterm : isTerminal it.status = false := by
    rcases hst with h | h <;> simp [isTerminal, h]
  have hfi : findItem it.id s = some it := by
    unfold findItem; exact find?_eq_of_mem hnd hit
  constructor
  · constructor
    · simp [approve, hfi, hterm]
    · simp [applyOp, approve, hfi, hterm]
  · intro cid c hfc hact
    have happ : approve it.id (some cid) r s = Except.ok { s with
        items := updIf it.id
          (fun j => { j with
              status := QStatus.completed
              assigned_to := none
              lease_start := none }) s.items
        skills := s.skills.map (fun sk =>
          if sk.id == it.skill_id then
            { sk with
                validation_status := VStatus.approved
                category := some cid }
          else sk)
        history := s.history ++
          [{ skill_id := it.skill_id
             item_id := it.id
             action := HAction.approved
             prior_category := skillCategory it.skill_id s
             new_category := some cid
             prior_status := it.status
             new_status := QStatus.completed
             reviewer := r
             note := "" }] } := by
      simp [approve, hfi, hterm, hfc, hact]
    refine ⟨_, happ, ?_, ?_, ?_⟩
    · exact ⟨_, mem_updIf_hit hit rfl, rfl, rfl⟩
    · intro sk hsk hskid
      refine ⟨_, List.mem_map_of_mem _ hsk, ?_⟩
      rw [if_pos (by simpa using hskid)]
      exact ⟨rfl, rfl, rfl⟩
    · exact ⟨_, rfl, rfl⟩

/-- Witness for C4 at a concrete input: approving the pending item with
the active category 3 and with null. -/
theorem approve_contract_witness :
    NodupIds exState ∧ exItem ∈ exState.items ∧
    (exItem.status = QStatus.pending ∨ exItem.status = QStatus.in_progress) ∧
    ((approve exItem.id none "alice" exState =
          Except.error EngError.ValidationError ∧
        applyOp (Op.approve exItem.id none "alice") exState = exState) ∧
      (∀ cid c, findCategory cid exState = some c → c.is_active = true →
        ∃ s2, approve exItem.id (some cid) "alice" exState = Except.ok s2 ∧
          (∃ it2 ∈ s2.items, it2.id = exItem.id ∧
            it2.status = QStatus.completed) ∧
          (∀ sk ∈ exState.skills, sk.id = exItem.skill_id →
            ∃ sk2 ∈ s2.skills, sk2.id = sk.id ∧
              sk2.validation_status = VStatus.approved ∧
              sk2.category = some cid) ∧
          (∃ rec, s2.history = exState.history ++ [rec] ∧
            rec.action = HAction.approved))) :=
  ⟨by decide, by decide, by decide,
    approve_contract exState (by decide) exItem (by decide) (by decide) "alice"⟩

/-- A map that fixes every member is the identity. -/
theorem map_eq_self {α : Type} {f : α → α} {l : List α} (h : ∀ a ∈ l, f a = a) :
    l.map f = l := by
  induction l with
  | nil => rfl
  | cons a t ih =>
    rw [List.map_cons, h a (List.mem_cons_self a t),
      ih (fun x hx => h x (List.mem_cons_of_mem a hx))]

/-- After one Reaper pass nothing is stuck under the same clock. -/
theorem reset_all_clear (timeout now : Nat) (s : EngineState) :
    ∀ j ∈ (resetStuckItems timeout now s).1.items,
      isStuck timeout now j = false := by
  intro j hj
  rcases List.mem_map.mp hj with ⟨x, hx, he⟩
  by_cases hp : isStuck timeout now x = true
  · rw [if_pos hp] at he
    rw [← he]
    simp [isStuck, resetItem]
  · rw [if_neg hp] at he
    rw [← he]
    simpa using hp

/-- C5: the Reaper is idempotent over an unchanged clock - immediately
repeating resetStuckItems with no lease newly exceeding the timeout
returns the count 0 and changes no state. -/
theorem resetStuckItems_idempotent (timeout now : Nat) (s : EngineState) :
    resetStuckItems timeout now ((resetStuckItems timeout now s).1) =
      ((resetStuckItems timeout now s).1, 0) := by
  have hall := reset_all_clear timeout now s
  have hmap : (resetStuckItems timeout now s).1.items.map
      (fun j => if isStuck timeout now j then resetItem j else j) =
      (resetStuckItems timeout now s).1.items :=
    map_eq_self (fun j hj => if_neg (by simp [hall j hj]))
  have hcount : (resetStuckItems timeout now s).1.items.countP
      (isStuck timeout now) = 0 := by
    rw [List.countP_eq_zero]
    intro j hj
    simp [hall j hj]
  show ({ (resetStuckItems timeout now s).1 with
      items := (resetStuckItems timeout now s).1.items.map
        (fun it => if isStuck timeout now it then resetItem it else it) },
    (resetStuckItems timeout now s).1.items.countP (isStuck timeout now)) =
    ((resetStuckItems timeout now s).1, 0)
  rw [hmap, hcount]

/-- C6: the Reaper resets exactly the expired in_progress items - for each
of those it sets status to pending and clears assignee and lease start
while keeping priority and every other field, and it leaves every other
item, the registry, the categories and the history untouched. -/
theorem resetStuckItems_frame (timeout now : Nat) (s : EngineState) :
    (∀ it ∈ s.items, isStuck timeout now it = true →
      ∃ it2 ∈ (resetStuckItems timeout now s).1.items,
        it2.id = it.id ∧ it2.status = QStatus.pending ∧
        it2.assigned_to = none ∧ it2.lease_start = none ∧
        it2.priority = it.priority ∧ it2.skill_id = it.skill_id ∧
        it2.source_count = it.source_count ∧
        it2.context_samples = it.context_samples ∧
        it2.created_at = it.created_at) ∧
    (∀ it ∈ s.items, isStuck timeout now it = false →
      it ∈ (resetStuckItems timeout now s).1.items) ∧
    (resetStuckItems timeout now s).1.skills = s.skills ∧
    (resetStuckItems timeout now s).1.categories = s.categories ∧
    (resetStuckItems timeout now s).1.history = s.history := by
  refine ⟨?_, ?_, rfl, rfl, rfl⟩
  · intro it hit hstuck
    have hm : (if isStuck timeout now it then resetItem it else it) ∈
        (resetStuckItems timeout now s).1.items := List.mem_map_of_mem
      (fun j => if isStuck timeout now j then resetItem j else j) hit
    rw [if_pos hstuck] at hm
    exact ⟨resetItem it, hm, rfl, rfl, rfl, rfl, rfl, rfl, rfl, rfl, rfl⟩
  · intro it hit hclear
    have hm : (if isStuck timeout now it then resetItem it else it) ∈
        (resetStuckItems timeout now s).1.items := List.mem_map_of_mem
      (fun j => if isStuck timeout now j then resetItem j else j) hit
    rw [if_neg (by simp [hclear])] at hm
    exact hm

/-- Concrete stuck in_progress item (lease started at 0). -/
def exItemStuck : QueueItem :=
  { id := 12, skill_id := 1, status := QStatus.in_progress, priority := 55,
    assigned_to := some "bob", lease_start := some 0, source_count := 3,
    context_samples := [], created_at := 0 }

/-- Concrete state holding one pending and one stuck item. -/
def exStateStuck : EngineState :=
  { skills := [exSkill], items := [exItem, exItemStuck],
    categories := [exCategory, exCategoryInactive], history := [] }

/-- Witness for C6 at a concrete input: the expired item of exStateStuck
is reset with priority kept, and the pending item passes through. -/
theorem resetStuckItems_frame_witness :
    isStuck 24 30 exItemStuck = true ∧ exItemStuck ∈ exStateStuck.items ∧
    (∃ it2 ∈ (resetStuckItems 24 30 exStateStuck).1.items,
      it2.id = exItemStuck.id ∧ it2.status = QStatus.pending ∧
      it2.assigned_to = none ∧ it2.lease_start = none ∧
      it2.priority = exItemStuck.priority ∧
      it2.skill_id = exItemStuck.skill_id ∧
      it2.source_count = exItemStuck.source_count ∧
      it2.context_samples = exItemStuck.context_samples ∧
      it2.created_at = exItemStuck.created_at) :=
  ⟨by decide, by decide,
    (resetStuckItems_frame 24 30 exStateStuck).1 exItemStuck (by decide)
      (by decide)⟩

/-- countP over the zip of a list with its own map evaluates pointwise. -/
theorem countP_zip_map (f : QueueItem → QueueItem)
    (q : QueueItem × QueueItem → Bool) (l : List QueueItem) :
    (l.zip (l.map f)).countP q = l.countP (fun a => q (a, f a)) := by
  induction l with
  | nil => rfl
  | cons a t ih =>
    rw [List.map_cons, List.zip_cons_cons, List.countP_cons, List.countP_cons, ih]

/-- Rescoring is stable: the score reads only fields the priority update
keeps, so scoring the updated row gives the same value. -/
theorem itemScore_stable (score : Nat → Nat → Nat) (now : Nat)
    (skills : List Skill) (a : QueueItem) :
    itemScore score now skills
        { a with priority := itemScore score now skills a } =
      itemScore score now skills a := by
  unfold itemScore
  dsimp only
  cases hf : skills.find? (fun sk => sk.id == a.skill_id) with
  | some sk => rfl
  | none => rfl

/-- C7: the Reprioritizer touches only pending items, returns the number
of items whose priority value actually changed, and is idempotent: run
again with no usage_count or age change, it reports 0 and changes
nothing. -/
theorem reprioritize_contract (score : Nat → Nat → Nat) (now : Nat)
    (s : EngineState) :
    (∀ it ∈ s.items, it.status ≠ QStatus.pending →
      it ∈ (reprioritize score now s).1.items) ∧
    (reprioritize score now s).2 =
      (s.items.zip ((reprioritize score now s).1.items)).countP
        (fun pr => !(pr.1.priority == pr.2.priority)) ∧
    reprioritize score now ((reprioritize score now s).1) =
      ((reprioritize score now s).1, 0) := by
  refine ⟨?_, ?_, ?_⟩
  · intro it hit hnp
    have hm : (if it.status == QStatus.pending then
        { it with priority := itemScore score now s.skills it } else it) ∈
        (reprioritize score now s).1.items :=
      List.mem_map_of_mem
        (fun j => if j.status == QStatus.pending then
          { j with priority := itemScore score now s.skills j } else j) hit
    rw [if_neg (by simp [hnp])] at hm
    exact hm
  · show s.items.countP (fun it => it.status == QStatus.pending &&
        !(itemScore score now s.skills it == it.priority)) =
      (s.items.zip (s.items.map (fun j => if j.status == QStatus.pending then
        { j with priority := itemScore score now s.skills j } else j))).countP
        (fun pr => !(pr.1.priority == pr.2.priority))
    rw [countP_zip_map]
    apply List.countP_congr
    intro a ha
    by_cases hp : (a.status == QStatus.pending) = true
    · rw [if_pos hp]
      rw [hp]
      simp only [Bool.true_and]
      constructor
      · intro h
        have hne : itemScore score now s.skills a ≠ a.priority := by simpa using h
        simpa using Ne.symm hne
      · intro h
        have hne : a.priority ≠ itemScore score now s.skills a := by simpa using h
        simpa using Ne.symm hne
    · rw [if_neg hp]
      simp only [Bool.not_eq_true] at hp
      rw [hp]
      simp
  · have hall : ∀ j ∈ (reprioritize score now s).1.items,
        (if j.status == QStatus.pending then
          { j with priority := itemScore score now s.skills j } else j) = j := by
      intro j hj
      rcases List.mem_map.mp hj with ⟨a, ha, he⟩
      by_cases hp : (a.status == QStatus.pending) = true
      · rw [if_pos hp] at he
        subst he
        rw [if_pos hp, itemScore_stable]
      · rw [if_neg hp] at he
        subst he
        rw [if_neg hp]
    have hcnt : ∀ j ∈ (reprioritize score now s).1.items,
        (j.status == QStatus.pending &&
          !(itemScore score now s.skills j == j.priority)) = false := by
      intro j hj
      rcases List.mem_map.mp hj with ⟨a, ha, he⟩
      by_cases hp : (a.status == QStatus.pending) = true
      · rw [if_pos hp] at he
        subst he
        rw [itemScore_stable]
        simp
      · rw [if_neg hp] at he
        subst he
        simp only [Bool.not_eq_true] at hp
        rw [hp]
        simp
    have hfst : (reprioritize score now ((reprioritize score now s).1)).1 =
        (reprioritize score now s).1 := by
      have hm : ((reprioritize score now s).1).items.map
          (fun j => if j.status == QStatus.pending then
            { j with priority := itemScore score now s.skills j } else j) =
          ((reprioritize score now s).1).items := map_eq_self hall
      calc (reprioritize score now ((reprioritize score now s).1)).1
          = { (reprioritize score now s).1 with
              items := ((reprioritize score now s).1).items.map
                (fun j => if j.status == QStatus.pending then
                  { j with priority := itemScore score now s.skills j }
                  else j) } := rfl
        _ = { (reprioritize score now s).1 with
              items := ((reprioritize score now s).1).items } := by rw [hm]
        _ = (reprioritize score now s).1 := rfl
    have hsnd : (reprioritize score now ((reprioritize score now s).1)).2 = 0 := by
      refine List.countP_eq_zero.mpr ?_
      intro j hj
      have hz := hcnt j hj
      simp only [Bool.not_eq_true]
      exact hz
    exact Prod.ext_iff.mpr ⟨hfst, hsnd⟩

/-- Witness for C7 at a concrete input: usage-count scoring over the
two-item state; the second immediate run reports zero changes. -/
theorem reprioritize_contract_witness :
    (∀ it ∈ exStateStuck.items, it.status ≠ QStatus.pending →
      it ∈ (reprioritize (fun u _ => u) 9 exStateStuck).1.items) ∧
    (reprioritize (fun u _ => u) 9 exStateStuck).2 =
      (exStateStuck.items.zip
        ((reprioritize (fun u _ => u) 9 exStateStuck).1.items)).countP
        (fun pr => !(pr.1.priority == pr.2.priority)) ∧
    reprioritize (fun u _ => u) 9
        ((reprioritize (fun u _ => u) 9 exStateStuck).1) =
      ((reprioritize (fun u _ => u) 9 exStateStuck).1, 0) :=
  reprioritize_contract (fun u _ => u) 9 exStateStuck

/-- C8: the page size of a list request is capped at MAX_PAGE_SIZE (100):
a request within the cap returns one page of items plus aggregate counts
computed over the same filter, and a request above the cap fails with
CapacityError instead of returning items. -/
theorem list_page_size_cap (flt : QueueItem → Bool) (start pageSize : Nat)
    (s : EngineState) :
    (pageSize ≤ MAX_PAGE_SIZE →
      list flt start pageSize s = Except.ok
        { pageItems := ((s.items.filter flt).drop start).take pageSize
          pending := (s.items.filter flt).countP
            (fun it => it.status == QStatus.pending)
          in_progress := (s.items.filter flt).countP
            (fun it => it.status == QStatus.in_progress)
          completed := (s.items.filter flt).countP
            (fun it => it.status == QStatus.completed)
          skipped := (s.items.filter flt).countP
            (fun it => it.status == QStatus.skipped)
          total := (s.items.filter flt).length }) ∧
    (MAX_PAGE_SIZE < pageSize →
      list flt start pageSize s = Except.error EngError.CapacityError) := by
  constructor
  · intro h
    unfold list
    rw [if_neg (by omega)]
  · intro h
    unfold list
    rw [if_pos h]

/-- Witness for C8 at concrete inputs: limit 100 is served, limit 101 is
refused. -/
theorem list_page_size_cap_witness :
    list (fun _ => true) 0 101 exState = Except.error EngError.CapacityError ∧
    list (fun _ => true) 0 100 exState = Except.ok
      { pageItems := ((exState.items.filter (fun _ => true)).drop 0).take 100
        pending := (exState.items.filter (fun _ => true)).countP
          (fun it => it.status == QStatus.pending)
        in_progress := (exState.items.filter (fun _ => true)).countP
          (fun it => it.status == QStatus.in_progress)
        completed := (exState.items.filter (fun _ => true)).countP
          (fun it => it.status == QStatus.completed)
        skipped := (exState.items.filter (fun _ => true)).countP
          (fun it => it.status == QStatus.skipped)
        total := (exState.items.filter (fun _ => true)).length } :=
  ⟨(list_page_size_cap (fun _ => true) 0 101 exState).2 (by decide),
    (list_page_size_cap (fun _ => true) 0 100 exState).1 (by decide)⟩

/-- Shallow embedding of the category id parse done by the SkillCard
component: JavaScript parseInt reads the leading decimal digits of the
string and yields NaN - here none - when there are none
(frontend/components/validation/SkillCard.js). -/
def jsParseInt (str : String) : Option Nat :=
  String.toNat? (String.mk (str.data.takeWhile Char.isDigit))

/-- Shallow embedding of SkillCard.handleApprove: the component returns
early with no onApprove call when no category is selected - the empty
string being the only falsy string - else it calls onApprove with the
skill id and the parsed selected category. -/
def handleApprove (selectedCategory : String) (skillId : Nat) :
    Option (Nat × Option Nat) :=
  if selectedCategory = "" then none
  else some (skillId, jsParseInt selectedCategory)

/-- Shallow embedding of the Approve button's disabled flag of SkillCard:
isProcessing or no selected category. -/
def approveDisabled (isProcessing : Bool) (selectedCategory : String) : Bool :=
  isProcessing || selectedCategory == ""

/-- Shallow embedding of the initial selectedCategory state of SkillCard:
the suggested category id rendered to a string, or the empty string. -/
def initialSelectedCategory (suggested_category_id : Option Nat) : String :=
  match suggested_category_id with
  | some cid => Nat.repr cid
  | none => ""

/-- The values the SkillCard selection state can take: its initial value,
or one of the category ids rendered by the Select options. -/
def reachableSelection (categories : List Category)
    (suggested : Option Nat) (v : String) : Prop :=
  v = initialSelectedCategory suggested ∨ ∃ c ∈ categories, v = Nat.repr c.id

instance (categories : List Category) (suggested : Option Nat) (v : String) :
    Decidable (reachableSelection categories suggested v) := by
  unfold reachableSelection; infer_instance

/-- Digit characters are rendered for remainders below ten. -/
theorem digitChar_isDigit {m : Nat} (h : m < 10) :
    (Nat.digitChar m).isDigit = true := by
  interval_cases m <;> decide

/-- Value of a rendered digit character. -/
theorem digitChar_val {m : Nat} (h : m < 10) :
    (Nat.digitChar m).toNat - Char.toNat (Char.ofNat 48) = m := by
  interval_cases m <;> decide

/-- The digit-rendering loop only appends to its accumulator. -/
theorem toDigitsCore_acc (fuel : Nat) : ∀ (n : Nat) (ds : List Char),
    Nat.toDigitsCore 10 fuel n ds = Nat.toDigitsCore 10 fuel n [] ++ ds := by
  induction fuel with
  | zero => intro n ds; rfl
  | succ fuel ih =>
    intro n ds
    simp only [Nat.toDigitsCore]
    by_cases h : n / 10 = 0
    · rw [if_pos h, if_pos h]; rfl
    · rw [if_neg h, if_neg h,
        ih (n / 10) (Nat.digitChar (n % 10) :: ds),
        ih (n / 10) [Nat.digitChar (n % 10)]]
      simp

/-- Every character the digit-rendering loop emits is a digit. -/
theorem toDigitsCore_digits (fuel : Nat) : ∀ n : Nat,
    ∀ c ∈ Nat.toDigitsCore 10 fuel n [], c.isDigit = true := by
  induction fuel with
  | zero => intro n c hc; cases hc
  | succ fuel ih =>
    intro n c hc
    simp only [Nat.toDigitsCore] at hc
    by_cases h : n / 10 = 0
    · rw [if_pos h] at hc
      rcases List.mem_singleton.mp hc with rfl
      exact digitChar_isDigit (Nat.mod_lt n (by norm_num))
    · rw [if_neg h, toDigitsCore_acc] at hc
      rcases List.mem_append.mp hc with h1 | h2
      · exact ih (n / 10) c h1
      · rcases List.mem_singleton.mp h2 with rfl
        exact digitChar_isDigit (Nat.mod_lt n (by norm_num))

/-- The digit rendering of a number is never empty. -/
theorem toDigitsCore_ne_nil {fuel n : Nat} (h : 0 < fuel) :
    Nat.toDigitsCore 10 fuel n [] ≠ [] := by
  cases fuel with
  | zero => omega
  | succ fuel =>
    simp only [Nat.toDigitsCore]
    by_cases hn : n / 10 = 0
    · rw [if_pos hn]; simp
    · rw [if_neg hn, toDigitsCore_acc]; simp

/-- Folding the decimal parse over the rendered digits recovers the
number. -/
theorem toDigitsCore_foldl (fuel : Nat) : ∀ n a, n < fuel →
    List.foldl (fun r c => r * 10 + (c.toNat - Char.toNat (Char.ofNat 48))) a
      (Nat.toDigitsCore 10 fuel n []) =
    a * 10 ^ (Nat.toDigitsCore 10 fuel n []).length + n := by
  induction fuel with
  | zero => intro n a h; omega
  | succ fuel ih =>
    intro n a h
    simp only [Nat.toDigitsCore]
    by_cases hn : n / 10 = 0
    · rw [if_pos hn]
      have hnlt : n < 10 := by omega
      have hm : n % 10 = n := Nat.mod_eq_of_lt hnlt
      simp only [List.foldl_cons, List.foldl_nil, List.length_cons,
        List.length_nil, Nat.zero_add]
      rw [digitChar_val (Nat.mod_lt n (by norm_num)), hm, pow_one]
    · rw [if_neg hn, toDigitsCore_acc]
      have hlt : n / 10 < fuel := by
        have h1 : n / 10 < n := Nat.div_lt_self (by omega) (by norm_num)
        omega
      rw [List.foldl_append, List.length_append, ih (n / 10) a hlt]
      simp only [List.foldl_cons, List.foldl_nil, List.length_cons,
        List.length_nil, Nat.zero_add]
      rw [digitChar_val (Nat.mod_lt n (by norm_num))]
      calc (a * 10 ^ (Nat.toDigitsCore 10 fuel (n / 10) []).length + n / 10)
            * 10 + n % 10
          = a * (10 ^ (Nat.toDigitsCore 10 fuel (n / 10) []).length * 10) +
            (10 * (n / 10) + n % 10) := by ring
        _ = a * 10 ^ ((Nat.toDigitsCore 10 fuel (n / 10) []).length + 1) + n := by
            rw [Nat.div_add_mod, pow_succ]

/-- Rendering a natural number and parsing it back with the SkillCard's
parse recovers the number: the integer category id survives the string
round trip through the Select component. -/
theorem jsParseInt_repr (n : Nat) : jsParseInt (Nat.repr n) = some n := by
  have hdig : ∀ c ∈ Nat.toDigitsCore 10 (n + 1) n [], c.isDigit = true :=
    toDigitsCore_digits (n + 1) n
  have hdata : (Nat.repr n).data = Nat.toDigitsCore 10 (n + 1) n [] := rfl
  have htw : (Nat.repr n).data.takeWhile Char.isDigit =
      Nat.toDigitsCore 10 (n + 1) n [] := by
    rw [hdata]
    exact List.takeWhile_eq_self_iff.mpr hdig
  unfold jsParseInt
  rw [htw]
  have hne : Nat.toDigitsCore 10 (n + 1) n [] ≠ [] :=
    toDigitsCore_ne_nil (by omega)
  have hisnat : (String.mk (Nat.toDigitsCore 10 (n + 1) n [])).isNat = true := by
    unfold String.isNat
    rw [Bool.and_eq_true_iff]
    constructor
    · rw [Bool.not_eq_true']
      rw [← Bool.not_eq_true]
      intro hemp
      exact hne (by
        have := (String.isEmpty_iff _).mp hemp
        have : (String.mk (Nat.toDigitsCore 10 (n + 1) n [])).data = ("" : String).data := by rw [this]
        simpa using this)
    · rw [String.all_eq]
      rw [List.all_eq_true]
      intro c hc
      exact hdig c hc
  unfold String.toNat?
  rw [if_pos hisnat]
  rw [String.foldl_eq]
  have := toDigitsCore_foldl (n + 1) n 0 (by omega)
  simp only [Nat.zero_mul, Nat.zero_add] at this
  rw [show (String.mk (Nat.toDigitsCore 10 (n + 1) n [])).1 =
      Nat.toDigitsCore 10 (n + 1) n [] from rfl]
  rw [this]

/-- C10: the SkillCard component never issues an approve request without
a category: with no selection, handleApprove returns without calling
onApprove and the Approve button is disabled; every call the component
does issue carries the skill id and a non-null integer category id taken
from the suggestion or the category options - the null-category
ValidationError path is unreachable from this interface. -/
theorem skillCard_approve_guard (cats : List Category) (suggested : Option Nat)
    (v : String) (hv : reachableSelection cats suggested v)
    (skillId : Nat) (proc : Bool) :
    (v = "" → handleApprove v skillId = none ∧
      approveDisabled proc v = true) ∧
    (∀ call, handleApprove v skillId = some call →
      ∃ n : Nat, call = (skillId, some n) ∧
        (suggested = some n ∨ ∃ c ∈ cats, c.id = n)) := by
  constructor
  · intro he
    subst he
    constructor
    · rfl
    · simp [approveDisabled]
  · intro call hc
    by_cases he : v = ""
    · rw [he] at hc
      cases hc
    · unfold handleApprove at hc
      rw [if_neg he] at hc
      rcases hv with hv1 | ⟨c, hcm, hv2⟩
      · cases hs : suggested with
        | none =>
          rw [hs] at hv1
          exact absurd hv1 he
        | some m =>
          rw [hs] at hv1
          have hp : jsParseInt v = some m := by
            rw [hv1]; exact jsParseInt_repr m
          rw [hp] at hc
          cases hc
          exact ⟨m, rfl, Or.inl rfl⟩
      · have hp : jsParseInt v = some c.id := by
          rw [hv2]; exact jsParseInt_repr c.id
        rw [hp] at hc
        cases hc
        exact ⟨c.id, rfl, Or.inr ⟨c, hcm, rfl⟩⟩

/-- Witness for C10 at a concrete input: selection "3" over the example
categories with suggested id 3. -/
theorem skillCard_approve_guard_witness :
    reachableSelection [exCategory, exCategoryInactive] (some 3) "3" ∧
    (("3" : String) = "" → handleApprove "3" 1 = none ∧
      approveDisabled false "3" = true) ∧
    (∀ call, handleApprove "3" 1 = some call →
      ∃ n : Nat, call = (1, some n) ∧
        ((some 3 : Option Nat) = some n ∨
          ∃ c ∈ [exCategory, exCategoryInactive], c.id = n)) :=
  ⟨by decide,
    (skillCard_approve_guard [exCategory, exCategoryInactive] (some 3) "3"
      (by decide) 1 false).1,
    (skillCard_approve_guard [exCategory, exCategoryInactive] (some 3) "3"
      (by decide) 1 false).2⟩

end JobQueue
